import Mathlib

/-!
# GraphQLFakeDataAPI: the generic helpers of `utils/linq.go` and the fake user data

A shallow embedding of `utils/linq.go` (`Transform`, `TransformValues`, `Where`,
`ValuesWhere`, `OrderedValues`, `Single`) and of `api/data.go` (`GetUserData`).

* A Go slice `[]T` is a `List T`; `append(r, x)` is `r ++ [x]`.
* A key type is any `constraints.Ordered` type, through its two operators `<` and `==`
  (`GoOrdered`). On integers and strings `<` is a linear order and `==` is equality; on
  `float64` (`Float64Key`) both are false as soon as one side is NaN.
* A Go `map[K]V` is a list of entries whose keys are pairwise different under `==`
  (`GoMap`); the order of the entries is the order in which the map happens to be
  iterated, so a statement about every `GoMap` is a statement about every iteration order.
* `sort.Slice` is library code: it is taken through its documented contract
  (`SliceSorter`); the insertion sort it runs on short slices is a concrete instance.
-/

namespace GraphQLFakeDataAPI

/-! ## Slices: `Transform`, `Where`, `Single` -/

/-- Go function `Transform` of `utils/linq.go`: `r := make([]U, 0, len(m))`, then for every `v` of `m`
in order `r = append(r, transformation(v))`. -/
def Transform {T U : Type} (m : List T) (transformation : T → U) : List U :=
  m.foldl (fun r v => r ++ [transformation v]) []

/-- Go function `Where` of `utils/linq.go`: `r := make(S, 0)`, then for every `item` of `m` in order,
`if condition(item) { r = append(r, item) }`. -/
def Where {T : Type} (m : List T) (condition : T → Bool) : List T :=
  m.foldl (fun r item => if condition item then r ++ [item] else r) []

/-- Message of the error `Single` returns when nothing matches. -/
def errNoMatch : String := "no items match the condition"

/-- Message of the error `Single` returns when more than one item matches. -/
def errMultipleMatch : String := "multiple items match the condition"

/-- Go function `Single` of `utils/linq.go`. The Go result `(*T, error)` is a pair: the first component
is `none` for a nil pointer and `some v` for a pointer to `v`; the second is `none` for a
nil error and `some msg` for `errors.New(msg)`. -/
def Single {T : Type} (s : List T) (condition : T → Bool) : Option T × Option String :=
  let matches_ := Where s condition
  match matches_.length with
  | 0 => (none, some errNoMatch)
  | 1 => (matches_[0]?, none)
  | _ => (none, some errMultipleMatch)

/-! ## Key types -/

/-- The two operators of a `constraints.Ordered` key type that the code relies on: the
comparison in the `less` of `OrderedValues`, and the equality by which a map tells its keys
apart. Nothing is assumed about them. -/
class GoOrdered (K : Type) where
  /-- Go's `a < b`. -/
  lt : K → K → Bool
  /-- Go's `a == b`. -/
  eq : K → K → Bool

/-- The well-behaved key types (integers, strings): `<` is a linear order, `==` is
equality. -/
instance instGoOrderedOfLinearOrder (K : Type) [LinearOrder K] : GoOrdered K where
  lt a b := decide (a < b)
  eq a b := decide (a = b)

/-- A `float64` key as `<` and `==` see it: a finite number, given by its exact value, or
NaN. (Infinities are left out; the two zeros are one number.) -/
inductive Float64Key where
  /-- A finite number. -/
  | num (x : ℚ)
  /-- The value NaN, not a number. -/
  | nan
  deriving DecidableEq

/-- Go's `<` and `==` on `float64`: the comparison of the numbers, and false as soon as one
side is NaN, so that NaN is neither below nor above anything and not even equal to
itself. -/
instance instGoOrderedFloat64Key : GoOrdered Float64Key where
  lt a b :=
    match a, b with
    | .num x, .num y => decide (x < y)
    | _, _ => false
  eq a b :=
    match a, b with
    | .num x, .num y => decide (x = y)
    | _, _ => false

/-! ## Maps -/

/-- A Go `map[K]V`: finitely many entries, no two keys equal under `==`. The order of
`entries` is the (unspecified) order in which the map is iterated. -/
structure GoMap (K V : Type) [GoOrdered K] where
  /-- The key/value pairs, in iteration order. -/
  entries : List (K × V)
  /-- No two keys are `==`. -/
  distinct : entries.Pairwise (fun a b => GoOrdered.eq a.1 b.1 = false)

namespace GoMap

variable {K V : Type} [GoOrdered K]

/-- The empty map, `make(map[K]V, 0)`. -/
def empty : GoMap K V := ⟨[], List.Pairwise.nil⟩

/-- The number of keys, `len(m)`. -/
def len (m : GoMap K V) : Nat := m.entries.length

/-- The comma-ok lookup `v, ok := m[k]`: `some v` when an entry has a key `==` to `k`,
`none` otherwise. -/
def lookup (m : GoMap K V) (k : K) : Option V :=
  (m.entries.find? (fun e => GoOrdered.eq e.1 k)).map Prod.snd

/-- The index expression `m[k]`: the stored value, or the zero value of `V` when no key is
`==` to `k`. -/
def index [Inhabited V] (m : GoMap K V) (k : K) : V :=
  (m.lookup k).getD default

/-- The assignment `m[k] = v`: any earlier entry whose key is `==` to `k` is dropped and
`(k, v)` becomes an entry. -/
def insert (m : GoMap K V) (k : K) (v : V) : GoMap K V where
  entries := m.entries.filter (fun e => !GoOrdered.eq e.1 k) ++ [(k, v)]
  distinct := by
    rw [List.pairwise_append]
    refine ⟨m.distinct.sublist (List.filter_sublist _), List.pairwise_singleton _ _, ?_⟩
    intro a ha b hb
    rw [List.mem_singleton] at hb
    subst hb
    simpa using (List.mem_filter.1 ha).2

end GoMap

/-- Library function `maps.Keys(m)` of `golang.org/x/exp/maps`: the keys of `m`, in iteration order. -/
def Keys {K V : Type} [GoOrdered K] (m : GoMap K V) : List K := m.entries.map Prod.fst

/-! ## `sort.Slice` -/

/-- What `sort.Slice(x, less)` asks of its `less`, which it only ever calls on elements of
`x`: on them it is irreflexive, transitive, and transitive on incomparable pairs (a strict
weak ordering). -/
def StrictWeakOrderOn {K : Type} (x : List K) (less : K → K → Bool) : Prop :=
  (∀ a, a ∈ x → less a a = false) ∧
  (∀ a, a ∈ x → ∀ b, b ∈ x → ∀ c, c ∈ x →
    less a b = true → less b c = true → less a c = true) ∧
  (∀ a, a ∈ x → ∀ b, b ∈ x → ∀ c, c ∈ x →
    less b a = false → less c b = false → less c a = false)

/-- The contract of the library function `sort.Slice(x, less)`: the slice is rearranged
(`perm`) so that no element is `less` than one before it (`sorted`), whenever `less` is a
strict weak ordering of the elements. Nothing is promised about the order of elements that
are equal under `less`: the sort need not be stable. -/
structure SliceSorter (K : Type) where
  /-- The slice after `sort.Slice(x, less)`. -/
  sortSlice : List K → (K → K → Bool) → List K
  /-- Sorting rearranges. -/
  perm : ∀ x less, (sortSlice x less).Perm x
  /-- For a strict weak ordering the outcome is ordered. -/
  sorted : ∀ x less, StrictWeakOrderOn x less →
    (sortSlice x less).Pairwise (fun a b => less b a = false)

/-- The inner loop of the library's `insertionSortLessFunc`,
`for j := i; j > a && less(j, j-1); j-- { swap(j, j-1) }`: the element `x` at position `i`
moves left past every element it is `less` than and stops at the first it is not. The
part of the slice before position `i` is given last element first, and so is the
outcome. -/
def insertLeft {K : Type} (less : K → K → Bool) (x : K) : List K → List K
  | [] => [x]
  | y :: rest => if less x y then y :: insertLeft less x rest else x :: y :: rest

/-- The library's `insertionSortLessFunc`, which is all that `sort.Slice` runs on a slice of
at most 12 elements: for `i = 1, 2, ...` the inner loop moves the element at position `i`
into the part before it. -/
def insertionSortLessFunc {K : Type} (data : List K) (less : K → K → Bool) : List K :=
  (data.foldl (fun sortedRev x => insertLeft less x sortedRev) []).reverse

/-- An insertion sort: one concrete `sort.Slice`, the one of the library on short
slices. -/
def insertionSorter (K : Type) : SliceSorter K where
  sortSlice := insertionSortLessFunc
  perm x less := by
    have hins : ∀ (a : K) (l : List K), (insertLeft less a l).Perm (a :: l) := by
      intro a l
      induction l with
      | nil => exact List.Perm.refl _
      | cons y rest ih =>
        unfold insertLeft
        cases less a y
        · exact List.Perm.refl _
        · exact ((List.Perm.cons y ih).trans (List.Perm.swap a y rest))
    have hfold : ∀ (l acc : List K),
        (l.foldl (fun sortedRev a => insertLeft less a sortedRev) acc).Perm
          (l.reverse ++ acc) := by
      intro l
      induction l with
      | nil => intro acc; exact List.Perm.refl _
      | cons a t ih =>
        intro acc
        rw [List.foldl_cons, List.reverse_cons, List.append_assoc]
        exact (ih _).trans (List.Perm.append_left _ (hins a acc))
    unfold insertionSortLessFunc
    have h := hfold x []
    rw [List.append_nil] at h
    exact (List.reverse_perm _).trans (h.trans (List.reverse_perm x))
  sorted x less hswo := by
    have hmem : ∀ (a : K) (l : List K) (b : K),
        b ∈ insertLeft less a l → b = a ∨ b ∈ l := by
      intro a l
      induction l with
      | nil => intro b hb; exact Or.inl (List.mem_singleton.1 hb)
      | cons y rest ih =>
        intro b hb
        unfold insertLeft at hb
        cases hay : less a y
        · rw [hay] at hb
          simpa using hb
        · rw [hay] at hb
          rcases List.mem_cons.1 hb with h | h
          · exact Or.inr (h ▸ List.mem_cons_self _ _)
          · rcases ih b h with h1 | h1
            · exact Or.inl h1
            · exact Or.inr (List.mem_cons_of_mem _ h1)
    have hins : ∀ (a : K) (l : List K), a ∈ x → (∀ z, z ∈ l → z ∈ x) →
        l.Pairwise (fun p q => less p q = false) →
        (insertLeft less a l).Pairwise (fun p q => less p q = false) := by
      intro a l
      induction l with
      | nil => intro _ _ _; exact List.pairwise_singleton _ _
      | cons y rest ih =>
        intro ha hl hp
        rw [List.pairwise_cons] at hp
        have hy : y ∈ x := hl y (List.mem_cons_self _ _)
        have hrest : ∀ z, z ∈ rest → z ∈ x := fun z hz => hl z (List.mem_cons_of_mem _ hz)
        unfold insertLeft
        cases hay : less a y
        · simp only [Bool.false_eq_true, if_false]
          rw [List.pairwise_cons]
          refine ⟨?_, List.pairwise_cons.2 hp⟩
          intro b hb
          rcases List.mem_cons.1 hb with h | h
          · rw [h]; exact hay
          · exact hswo.2.2 b (hrest b h) y hy a ha (hp.1 b h) hay
        · simp only [if_true]
          rw [List.pairwise_cons]
          refine ⟨?_, ih ha hrest hp.2⟩
          intro b hb
          rcases hmem a rest b hb with h | h
          · rw [h]
            cases hya : less y a
            · rfl
            · have := hswo.2.1 a ha y hy a ha hay hya
              rw [hswo.1 a ha] at this
              exact absurd this (by decide)
          · exact hp.1 b h
    have hfold : ∀ (l acc : List K), (∀ z, z ∈ l → z ∈ x) → (∀ z, z ∈ acc → z ∈ x) →
        acc.Pairwise (fun p q => less p q = false) →
        (l.foldl (fun sortedRev a => insertLeft less a sortedRev) acc).Pairwise
          (fun p q => less p q = false) := by
      intro l
      induction l with
      | nil => intro acc _ _ h; exact h
      | cons a t ih =>
        intro acc hl hacc h
        have ha : a ∈ x := hl a (List.mem_cons_self _ _)
        refine ih _ (fun z hz => hl z (List.mem_cons_of_mem _ hz)) ?_ (hins a acc ha hacc h)
        intro z hz
        rcases hmem a acc z hz with h1 | h1
        · rw [h1]; exact ha
        · exact hacc z h1
    unfold insertionSortLessFunc
    rw [List.pairwise_reverse]
    exact hfold x [] (fun z hz => hz) (fun z hz => absurd hz (List.not_mem_nil z))
      List.Pairwise.nil

/-- A second concrete `sort.Slice`, which is not stable: the insertion sort run on the
reversed slice, so that elements equal under `less` come out in reverse order. -/
def reversingSorter (K : Type) : SliceSorter K where
  sortSlice x less := (insertionSorter K).sortSlice x.reverse less
  perm x less := ((insertionSorter K).perm x.reverse less).trans (List.reverse_perm x)
  sorted x less h := (insertionSorter K).sorted x.reverse less
    ⟨fun a ha => h.1 a (List.mem_reverse.1 ha),
      fun a ha b hb c hc => h.2.1 a (List.mem_reverse.1 ha) b (List.mem_reverse.1 hb) c
        (List.mem_reverse.1 hc),
      fun a ha b hb c hc => h.2.2 a (List.mem_reverse.1 ha) b (List.mem_reverse.1 hb) c
        (List.mem_reverse.1 hc)⟩

/-! ## Keys that can be compared -/

/-- The condition under which the keys of a map can be put in ascending order and found
again: on them `==` is reflexive, `<` is a strict weak ordering, and of two keys one is
`<` the other unless they are `==`. For the key types of Go, where only the NaN of a float
type breaks any of this, it says that no key is NaN. -/
def ComparableKeys {K : Type} [GoOrdered K] (keys : List K) : Prop :=
  (∀ a, a ∈ keys → GoOrdered.eq a a = true) ∧
  StrictWeakOrderOn keys (fun a b => GoOrdered.lt a b) ∧
  (∀ a, a ∈ keys → ∀ b, b ∈ keys →
    GoOrdered.lt a b = true ∨ GoOrdered.lt b a = true ∨
      (GoOrdered.eq a b = true ∧ GoOrdered.eq b a = true))

/-! ## `OrderedValues`, `ValuesWhere`, `TransformValues` -/

/-- The body of `OrderedValues` after `keys := maps.Keys(m)`: `sort.Slice(keys, less)` with
`less(i, j) = keys[i] < keys[j]`, then `result := make([]U, 0)` and for every `key` of the
sorted `keys` in order `result = append(result, m[key])`. -/
def OrderedValuesOf {K V : Type} [GoOrdered K] [Inhabited V] (srt : SliceSorter K)
    (m : GoMap K V) (keys : List K) : List V :=
  let keys := srt.sortSlice keys (fun a b => GoOrdered.lt a b)
  keys.foldl (fun result key => result ++ [m.index key]) []

/-- Go function `OrderedValues` of `utils/linq.go`: its body, run on `maps.Keys(m)`. -/
def OrderedValues {K V : Type} [GoOrdered K] [Inhabited V] (srt : SliceSorter K)
    (m : GoMap K V) : List V :=
  OrderedValuesOf srt m (Keys m)

/-- Go function `ValuesWhere` of `utils/linq.go`: `Where(OrderedValues(m), condition)`. -/
def ValuesWhere {K V : Type} [GoOrdered K] [Inhabited V] (srt : SliceSorter K)
    (m : GoMap K V) (condition : V → Bool) : List V :=
  Where (OrderedValues srt m) condition

/-- Go function `TransformValues` of `utils/linq.go`: `Transform(OrderedValues(m), transformation)`. -/
def TransformValues {K V W : Type} [GoOrdered K] [Inhabited V] (srt : SliceSorter K)
    (m : GoMap K V) (transformation : V → W) : List W :=
  Transform (OrderedValues srt m) transformation

/-! ## Maps with `float64` keys, without and with a NaN key -/

/-- The number -2.5, that is -5/2 in lowest terms. -/
def minusTwoAndAHalf : ℚ := ⟨-5, 2, by decide, by decide⟩

/-- The map `map[float64]string{1: "a", -2.5: "b"}`, which has no NaN key, iterated in the
order 1, -2.5. -/
def floatMap : GoMap Float64Key String :=
  (GoMap.empty.insert (.num 1) "a").insert (.num minusTwoAndAHalf) "b"

/-- The map `map[float64]string{1: "a", -2.5: "b", NaN: "x"}`, iterated in the order
1, -2.5, NaN. -/
def nanMapA : GoMap Float64Key String :=
  ((GoMap.empty.insert (.num 1) "a").insert (.num minusTwoAndAHalf) "b").insert .nan "x"

/-- The same map `map[float64]string{1: "a", -2.5: "b", NaN: "x"}`, iterated in the order
-2.5, NaN, 1. -/
def nanMapB : GoMap Float64Key String :=
  ((GoMap.empty.insert (.num minusTwoAndAHalf) "b").insert .nan "x").insert (.num 1) "a"

/-- The same map `map[float64]string{1: "a", -2.5: "b", NaN: "x"}`, iterated in the order
NaN, -2.5, 1. -/
def nanMapC : GoMap Float64Key String :=
  ((GoMap.empty.insert .nan "x").insert (.num minusTwoAndAHalf) "b").insert (.num 1) "a"

/-! ## The fake user data (`api/data.go`) -/

/-- Modelled from the spec: the declaration of the record type `User` is not among the
sources. Its fields are the ones the composite literal in `GetUserData` sets, all
strings. -/
structure User where
  /-- The id, as text. -/
  ID : String
  /-- The display name. -/
  Name : String
  /-- The login name. -/
  Username : String
  deriving DecidableEq, Repr

/-- The zero value `User{}`. -/
instance : Inhabited User := ⟨⟨"", "", ""⟩⟩

/-- Library function `fmt.Sprint(i)` for an `int`: the decimal rendering, with a leading `-` when negative. -/
def Sprint (i : Int) : String := toString i

/-- Go function `GetUserData` of `api/data.go`: `users := make(map[int]User, 0)`, then for
`i = 0, 1, ..., 9` the assignment `users[i] = User{ID: iString, Name: "User " + iString,
Username: "User" + iString}` with `iString := fmt.Sprint(i)`. -/
def GetUserData : GoMap Int User :=
  (List.range 10).foldl
    (fun users i =>
      let iString := Sprint (Int.ofNat i)
      users.insert (Int.ofNat i)
        { ID := iString, Name := "User " ++ iString, Username := "User" ++ iString })
    GoMap.empty

/-- The map of `GetUserData` as it is iterated when the iteration happens to run the other
way round: the same entries, last one first. -/
def GetUserDataBackwards : GoMap Int User := ⟨GetUserData.entries.reverse, by decide⟩

/-! ## The collection resolvers

The resolvers themselves (`api/api.go` and the data source behind them) are not among the
sources; only their tests are. They are set down here from sections 4.3, 4.4 and 6 of the
specification. -/

/-- Modelled from the spec: the record type `Album` of the data source is missing; section
3 gives it an id, the foreign key `userid` and a description. -/
structure Album where
  /-- The id. -/
  ID : Int
  /-- The id of the owning user. -/
  UserID : Int
  /-- Free text. -/
  Description : String
  deriving DecidableEq, Repr

/-- Modelled from the spec: the record type `Photo` of the data source is missing; section
3 gives it an id, the foreign key `albumid` and a description. -/
structure Photo where
  /-- The id. -/
  ID : Int
  /-- The id of the album the photo is in. -/
  AlbumID : Int
  /-- Free text. -/
  Description : String
  deriving DecidableEq, Repr

/-- Modelled from the spec: the data source is missing; section 2 has it hold three ordered
collections, which is what `getAllOrdered` of section 6 returns for each entity kind. -/
structure DataSource where
  /-- All users, by ascending id. -/
  users : List User
  /-- All albums, by ascending id. -/
  albums : List Album
  /-- All photos, by ascending id. -/
  photos : List Photo

/-- Modelled from the spec: the limit rule of section 4.3, whose code is missing. No limit:
the result set as it is. A limit at least the size of the result set: the full result set.
A smaller limit: the first `limit` entries. A negative limit is treated like 0 (section
9). -/
def applyLimit {E : Type} (resultSet : List E) (limit : Option Int) : List E :=
  match limit with
  | none => resultSet
  | some l =>
    if l < 0 then []
    else if l ≥ (resultSet.length : Int) then resultSet
    else resultSet.take l.toNat

/-- Modelled from the spec: `resolveCollection(entityKind, filter?, limit?)` of section
4.3, whose code is missing. With a filter the result set is the entities of the collection
whose foreign key equals it, in the order of the collection; without one it is the whole
collection; the limit rule is applied last. -/
def resolveCollection {E : Type} (all : List E) (foreignKey : E → Int)
    (filter limit : Option Int) : List E :=
  let resultSet :=
    match filter with
    | none => all
    | some fk => all.filter (fun e => decide (foreignKey e = fk))
  applyLimit resultSet limit

/-- Modelled from the spec: the query field `users(limit?)`, whose code is missing. Users
have no foreign key, so there is never a filter. -/
def users (ds : DataSource) (limit : Option Int) : List User :=
  resolveCollection ds.users (fun _ => 0) none limit

/-- Modelled from the spec: the query field `albums(userid?, limit?)`, whose code is
missing. -/
def albums (ds : DataSource) (userid limit : Option Int) : List Album :=
  resolveCollection ds.albums Album.UserID userid limit

/-- Modelled from the spec: the query field `photos(albumid?, limit?)`, whose code is
missing. -/
def photos (ds : DataSource) (albumid limit : Option Int) : List Photo :=
  resolveCollection ds.photos Photo.AlbumID albumid limit

/-- Modelled from the spec: the relationship field `User.albums(limit?)` of section 4.4,
whose code is missing: section 4.3 with the id of the parent user as the filter. -/
def userAlbums (ds : DataSource) (parentID : Int) (limit : Option Int) : List Album :=
  resolveCollection ds.albums Album.UserID (some parentID) limit

/-- Modelled from the spec: the relationship field `Album.photos(limit?)` of section 4.4,
whose code is missing: section 4.3 with the id of the parent album as the filter. -/
def albumPhotos (ds : DataSource) (parentID : Int) (limit : Option Int) : List Photo :=
  resolveCollection ds.photos Photo.AlbumID (some parentID) limit

/-! ## Lemmas on the loops -/

/-- A loop that appends one computed element per item builds on what it started from. -/
theorem foldl_append_map {A B : Type} (f : A → B) (l : List A) (acc : List B) :
    l.foldl (fun r v => r ++ [f v]) acc = acc ++ l.map f := by
  induction l generalizing acc with
  | nil => simp
  | cons a t ih => simp [ih]

/-- A loop that appends the items passing a test builds on what it started from. -/
theorem foldl_append_filter {A : Type} (c : A → Bool) (l : List A) (acc : List A) :
    l.foldl (fun r item => if c item then r ++ [item] else r) acc = acc ++ l.filter c := by
  induction l generalizing acc with
  | nil => simp
  | cons a t ih =>
    cases h : c a <;> simp [h, ih]

/-- The loop of `Transform` computes the list map. -/
theorem Transform_eq_map {T U : Type} (m : List T) (f : T → U) :
    Transform m f = m.map f := by
  simp [Transform, foldl_append_map]

/-- The loop of `Where` computes the list filter. -/
theorem Where_eq_filter {T : Type} (m : List T) (c : T → Bool) :
    Where m c = m.filter c := by
  simp [Where, foldl_append_filter]

/-- How often a value occurs after filtering: as often as before when it passes the test,
not at all otherwise. -/
theorem count_filter_ite {A : Type} [DecidableEq A] (c : A → Bool) (l : List A) (x : A) :
    (l.filter c).count x = if c x = true then l.count x else 0 := by
  by_cases h : c x = true
  · rw [if_pos h, List.count_filter h]
  · rw [if_neg h]
    apply List.count_eq_zero_of_not_mem
    intro hx
    exact h (List.mem_filter.1 hx).2

/-! ## Lemmas on `Single` -/

/-- The filter is empty exactly when no position holds a passing element. -/
theorem filter_length_zero_iff {T : Type} (s : List T) (c : T → Bool) :
    (s.filter c).length = 0 ↔ ∀ (i : Nat) (x : T), s[i]? = some x → c x = false := by
  rw [List.length_eq_zero, List.filter_eq_nil_iff]
  constructor
  · intro h i x hx
    simpa using h x (List.getElem?_mem hx)
  · intro h x hx
    obtain ⟨i, hi⟩ := List.mem_iff_getElem?.1 hx
    simp [h i x hi]

/-- The filter has one element exactly when one position, and no other, holds a passing
element. -/
theorem filter_length_one_iff {T : Type} (s : List T) (c : T → Bool) :
    (s.filter c).length = 1 ↔
      ∃ i : Nat, (∃ x, s[i]? = some x ∧ c x = true) ∧
        ∀ j : Nat, (∃ y, s[j]? = some y ∧ c y = true) → j = i := by
  induction s with
  | nil => simp
  | cons a t ih =>
    cases ha : c a
    · rw [List.filter_cons_of_neg (by simp [ha]), ih]
      constructor
      · rintro ⟨i, ⟨x, hx, hcx⟩, huniq⟩
        refine ⟨i + 1, ⟨x, by simpa using hx, hcx⟩, ?_⟩
        rintro j ⟨y, hy, hcy⟩
        cases j with
        | zero =>
          simp only [List.getElem?_cons_zero, Option.some.injEq] at hy
          subst hy
          rw [ha] at hcy
          exact absurd hcy (by decide)
        | succ k =>
          simp only [List.getElem?_cons_succ] at hy
          rw [huniq k ⟨y, hy, hcy⟩]
      · rintro ⟨i, ⟨x, hx, hcx⟩, huniq⟩
        cases i with
        | zero =>
          simp only [List.getElem?_cons_zero, Option.some.injEq] at hx
          subst hx
          rw [ha] at hcx
          exact absurd hcx (by decide)
        | succ k =>
          simp only [List.getElem?_cons_succ] at hx
          refine ⟨k, ⟨x, hx, hcx⟩, ?_⟩
          rintro j ⟨y, hy, hcy⟩
          have := huniq (j + 1) ⟨y, by simpa using hy, hcy⟩
          omega
    · rw [List.filter_cons_of_pos ha, List.length_cons, Nat.succ_inj, filter_length_zero_iff]
      constructor
      · intro h
        refine ⟨0, ⟨a, by simp, ha⟩, ?_⟩
        rintro j ⟨y, hy, hcy⟩
        cases j with
        | zero => rfl
        | succ k =>
          simp only [List.getElem?_cons_succ] at hy
          rw [h k y hy] at hcy
          exact absurd hcy (by decide)
      · rintro ⟨i, _, huniq⟩ k y hy
        cases hcy : c y
        · rfl
        · have h0 := huniq 0 ⟨a, by simp, ha⟩
          have h1 := huniq (k + 1) ⟨y, by simpa using hy, hcy⟩
          omega

/-- The two ways of saying that exactly one position holds a passing element. -/
theorem unique_position_iff {T : Type} (s : List T) (c : T → Bool) :
    (∃ i : Nat, (∃ x, s[i]? = some x ∧ c x = true) ∧
        ∀ j : Nat, (∃ y, s[j]? = some y ∧ c y = true) → j = i) ↔
      ∃! i : Fin s.length, c (s.get i) = true := by
  constructor
  · rintro ⟨i, ⟨x, hx, hcx⟩, huniq⟩
    obtain ⟨hi, hxi⟩ := List.getElem?_eq_some.1 hx
    refine ⟨⟨i, hi⟩, ?_, ?_⟩
    · show c (s.get ⟨i, hi⟩) = true
      rw [List.get_eq_getElem]
      simpa [hxi] using hcx
    · intro j hj
      apply Fin.ext
      exact huniq j.1 ⟨s.get j, by simp, hj⟩
  · rintro ⟨i, hi, huniq⟩
    refine ⟨i.1, ⟨s.get i, by simp, hi⟩, ?_⟩
    rintro j ⟨y, hy, hcy⟩
    obtain ⟨hj, hyj⟩ := List.getElem?_eq_some.1 hy
    have := huniq ⟨j, hj⟩ (by
      show c (s.get ⟨j, hj⟩) = true
      rw [List.get_eq_getElem]
      simpa [hyj] using hcy)
    exact congrArg Fin.val this

/-- The three branches of the `switch` in `Single`, by the number of matches. -/
theorem Single_by_count {T : Type} (s : List T) (c : T → Bool) :
    ((s.filter c).length = 0 → Single s c = (none, some errNoMatch)) ∧
    (∀ x, s.filter c = [x] → Single s c = (some x, none)) ∧
    (2 ≤ (s.filter c).length → Single s c = (none, some errMultipleMatch)) := by
  refine ⟨?_, ?_, ?_⟩
  · intro h
    simp [Single, Where_eq_filter, h]
  · intro x h
    simp [Single, Where_eq_filter, h]
  · intro h
    obtain ⟨n, hn⟩ : ∃ n, (s.filter c).length = n + 2 := ⟨(s.filter c).length - 2, by omega⟩
    simp [Single, Where_eq_filter, hn]

/-! ## Lemmas on the limit rule -/

/-- A non-negative limit keeps the first `min(limit, N)` entries of a result set of size
`N`. -/
theorem applyLimit_nonneg {E : Type} (resultSet : List E) (l : Int) (hl : 0 ≤ l) :
    applyLimit resultSet (some l) = resultSet.take (min l.toNat resultSet.length) ∧
    ((applyLimit resultSet (some l)).length : Int) = min l (resultSet.length : Int) := by
  unfold applyLimit
  simp only []
  rw [if_neg (by omega)]
  by_cases h : l ≥ (resultSet.length : Int)
  · rw [if_pos h]
    have h1 : resultSet.length ≤ l.toNat := by omega
    refine ⟨?_, by omega⟩
    rw [Nat.min_eq_right h1, List.take_length]
  · rw [if_neg h]
    have h1 : l.toNat ≤ resultSet.length := by omega
    refine ⟨by rw [Nat.min_eq_left h1], ?_⟩
    rw [List.length_take]
    omega

/-- With a non-negative limit a collection is resolved to the first `min(limit, N)` entries
of what it is resolved to without a limit, `N` being the size of that. -/
theorem resolveCollection_nonneg {E : Type} (all : List E) (foreignKey : E → Int)
    (filter : Option Int) (l : Int) (hl : 0 ≤ l) :
    resolveCollection all foreignKey filter (some l) =
      (resolveCollection all foreignKey filter none).take
        (min l.toNat (resolveCollection all foreignKey filter none).length) ∧
    ((resolveCollection all foreignKey filter (some l)).length : Int) =
      min l ((resolveCollection all foreignKey filter none).length : Int) :=
  applyLimit_nonneg _ l hl

/-! ## Lemmas on maps and on sorted keys -/

/-- In an entry list whose keys are pairwise different under `==`, the search for a key
that is `==` to itself finds the value stored with it. -/
theorem find_entry_of_mem {K V : Type} [GoOrdered K] (l : List (K × V))
    (hd : l.Pairwise (fun a b => GoOrdered.eq a.1 b.1 = false)) (k : K) (v : V)
    (hmem : (k, v) ∈ l) (hrefl : GoOrdered.eq k k = true) :
    (l.find? (fun e => GoOrdered.eq e.1 k)).map Prod.snd = some v := by
  induction l with
  | nil => exact absurd hmem (List.not_mem_nil _)
  | cons e t ih =>
    rw [List.pairwise_cons] at hd
    rcases List.mem_cons.1 hmem with h | h
    · subst h
      simp [List.find?_cons, hrefl]
    · have he : GoOrdered.eq e.1 k = false := hd.1 (k, v) h
      simp only [List.find?_cons, he]
      exact ih hd.2 h

/-- The comma-ok lookup of a key of the map that is `==` to itself finds the value stored
with it. -/
theorem GoMap.lookup_of_mem_entries {K V : Type} [GoOrdered K] (m : GoMap K V) (k : K)
    (v : V) (hmem : (k, v) ∈ m.entries) (hrefl : GoOrdered.eq k k = true) :
    m.lookup k = some v :=
  find_entry_of_mem m.entries m.distinct k v hmem hrefl

/-- On a linearly ordered key type `==` is equality. -/
theorem GoOrdered_eq_iff {K : Type} [LinearOrder K] (a b : K) :
    GoOrdered.eq a b = true ↔ a = b := by
  show decide (a = b) = true ↔ a = b
  exact decide_eq_true_iff

/-- On a linearly ordered key type the keys of a map are pairwise different. -/
theorem GoMap.nodup_Keys {K V : Type} [LinearOrder K] (m : GoMap K V) : (Keys m).Nodup := by
  unfold Keys List.Nodup
  rw [List.pairwise_map]
  refine m.distinct.imp ?_
  intro a b hab heq
  rw [(GoOrdered_eq_iff a.1 b.1).2 heq] at hab
  exact absurd hab (by decide)

/-- On a linearly ordered key type the comma-ok lookup of `k` finds `v` exactly when
`(k, v)` is an entry. -/
theorem GoMap.lookup_eq_some_iff_mem {K V : Type} [LinearOrder K] (m : GoMap K V) (k : K)
    (v : V) : m.lookup k = some v ↔ (k, v) ∈ m.entries := by
  constructor
  · intro h
    unfold GoMap.lookup at h
    rw [Option.map_eq_some'] at h
    obtain ⟨e, he, hv⟩ := h
    have hp := List.find?_some he
    have hk : e.1 = k := (GoOrdered_eq_iff e.1 k).1 hp
    have hmem : e ∈ m.entries := List.mem_of_find?_eq_some he
    rw [← hk, ← hv]
    exact hmem
  · intro h
    exact m.lookup_of_mem_entries k v h ((GoOrdered_eq_iff k k).2 rfl)

/-- The comma-ok lookup succeeds exactly on the keys of the map. -/
theorem GoMap.lookup_isSome_iff_mem_Keys {K V : Type} [LinearOrder K] (m : GoMap K V)
    (k : K) : (m.lookup k).isSome = true ↔ k ∈ Keys m := by
  rw [Option.isSome_iff_exists]
  constructor
  · rintro ⟨v, hv⟩
    exact List.mem_map.2 ⟨(k, v), (m.lookup_eq_some_iff_mem k v).1 hv, rfl⟩
  · intro h
    obtain ⟨e, he, hk⟩ := List.mem_map.1 h
    refine ⟨e.2, (m.lookup_eq_some_iff_mem k e.2).2 ?_⟩
    rw [← hk]
    exact he

/-- On a key of the map the index expression returns the stored value. -/
theorem GoMap.lookup_eq_some_index {K V : Type} [LinearOrder K] [Inhabited V]
    (m : GoMap K V) (k : K) (h : k ∈ Keys m) : m.lookup k = some (m.index k) := by
  have h1 := (m.lookup_isSome_iff_mem_Keys k).2 h
  obtain ⟨v, hv⟩ := Option.isSome_iff_exists.1 h1
  simp [GoMap.index, hv]

/-- The lookup does not depend on the order of the entries. -/
theorem GoMap.lookup_perm {K V : Type} [LinearOrder K] (m1 m2 : GoMap K V)
    (hp : m1.entries.Perm m2.entries) (k : K) : m1.lookup k = m2.lookup k := by
  apply Option.ext
  intro v
  rw [Option.mem_def, Option.mem_def, m1.lookup_eq_some_iff_mem, m2.lookup_eq_some_iff_mem]
  exact hp.mem_iff

/-- Two maps with the same entries, iterated in different orders, index alike. -/
theorem GoMap.index_perm {K V : Type} [LinearOrder K] [Inhabited V] (m1 m2 : GoMap K V)
    (hp : m1.entries.Perm m2.entries) (k : K) : m1.index k = m2.index k := by
  simp [GoMap.index, GoMap.lookup_perm m1 m2 hp k]

/-- The comparison `a < b` of a linearly ordered key type is a strict weak ordering of any
list of keys. -/
theorem lt_strictWeakOrderOn {K : Type} [LinearOrder K] (keys : List K) :
    StrictWeakOrderOn keys (fun a b : K => GoOrdered.lt a b) := by
  show StrictWeakOrderOn keys (fun a b : K => decide (a < b))
  refine ⟨?_, ?_, ?_⟩
  · intro a _
    simp
  · intro a _ b _ c _ hab hbc
    simp only [decide_eq_true_eq] at hab hbc ⊢
    exact lt_trans hab hbc
  · intro a _ b _ c _ hab hbc
    simp only [decide_eq_false_iff_not, not_lt] at hab hbc ⊢
    exact le_trans hab hbc

/-- The keys of a linearly ordered key type can always be compared. -/
theorem comparableKeys_of_linearOrder {K : Type} [LinearOrder K] (keys : List K) :
    ComparableKeys keys := by
  refine ⟨?_, lt_strictWeakOrderOn keys, ?_⟩
  · intro a _
    exact (GoOrdered_eq_iff a a).2 rfl
  · intro a _ b _
    rcases lt_trichotomy a b with h | h | h
    · exact Or.inl (decide_eq_true h)
    · exact Or.inr (Or.inr ⟨(GoOrdered_eq_iff a b).2 h, (GoOrdered_eq_iff b a).2 h.symm⟩)
    · exact Or.inr (Or.inl (decide_eq_true h))

/-- The keys of a `float64` map can be compared exactly when none of them is NaN. -/
theorem comparableKeys_float_iff (keys : List Float64Key) :
    ComparableKeys keys ↔ Float64Key.nan ∉ keys := by
  constructor
  · intro h hnan
    have hrefl := h.1 _ hnan
    revert hrefl
    decide
  · intro h
    have hnum : ∀ a, a ∈ keys → ∃ x, a = Float64Key.num x := by
      intro a ha
      cases a with
      | num x => exact ⟨x, rfl⟩
      | nan => exact absurd ha h
    refine ⟨?_, ⟨?_, ?_, ?_⟩, ?_⟩
    · intro a ha
      obtain ⟨x, rfl⟩ := hnum a ha
      show decide (x = x) = true
      simp
    · intro a ha
      obtain ⟨x, rfl⟩ := hnum a ha
      show decide (x < x) = false
      simp
    · intro a ha b hb c hc
      obtain ⟨x, rfl⟩ := hnum a ha
      obtain ⟨y, rfl⟩ := hnum b hb
      obtain ⟨z, rfl⟩ := hnum c hc
      show decide (x < y) = true → decide (y < z) = true → decide (x < z) = true
      simp only [decide_eq_true_eq]
      exact lt_trans
    · intro a ha b hb c hc
      obtain ⟨x, rfl⟩ := hnum a ha
      obtain ⟨y, rfl⟩ := hnum b hb
      obtain ⟨z, rfl⟩ := hnum c hc
      show decide (y < x) = false → decide (z < y) = false → decide (z < x) = false
      simp only [decide_eq_false_iff_not, not_lt]
      exact fun h1 h2 => le_trans h1 h2
    · intro a ha b hb
      obtain ⟨x, rfl⟩ := hnum a ha
      obtain ⟨y, rfl⟩ := hnum b hb
      show decide (x < y) = true ∨ decide (y < x) = true ∨
        (decide (x = y) = true ∧ decide (y = x) = true)
      simp only [decide_eq_true_eq]
      rcases lt_trichotomy x y with h1 | h1 | h1
      · exact Or.inl h1
      · exact Or.inr (Or.inr ⟨h1, h1.symm⟩)
      · exact Or.inr (Or.inl h1)

/-- Sorting a list without repetitions by `<` gives a strictly ascending list. -/
theorem sortSlice_strictly_ascending {K : Type} [LinearOrder K] (srt : SliceSorter K)
    (keys : List K) (hnd : keys.Nodup) :
    (srt.sortSlice keys (fun a b => GoOrdered.lt a b)).Sorted (fun a b => a < b) := by
  have h1 := srt.sorted keys _ (lt_strictWeakOrderOn keys)
  have h2 : (srt.sortSlice keys (fun a b => GoOrdered.lt a b)).Nodup :=
    (srt.perm keys _).nodup_iff.2 hnd
  have h3 := List.Pairwise.and h1 h2
  refine h3.imp ?_
  intro a b hab
  obtain ⟨hle, hne⟩ := hab
  have hle2 : decide (b < a) = false := hle
  simp only [decide_eq_false_iff_not, not_lt] at hle2
  exact lt_of_le_of_ne hle2 hne

/-- When the keys of a map can be compared, sorting any enumeration of them by `<` gives a
strictly ascending list. -/
theorem sortSlice_ascending_of_comparable {K V : Type} [GoOrdered K] (srt : SliceSorter K)
    (m : GoMap K V) (keys : List K) (hp : keys.Perm (Keys m))
    (hk : ComparableKeys (Keys m)) :
    (srt.sortSlice keys (fun a b => GoOrdered.lt a b)).Pairwise
      (fun a b => GoOrdered.lt a b = true) := by
  have hswo : StrictWeakOrderOn keys (fun a b => GoOrdered.lt a b) :=
    ⟨fun a ha => hk.2.1.1 a (hp.mem_iff.1 ha),
      fun a ha b hb c hc => hk.2.1.2.1 a (hp.mem_iff.1 ha) b (hp.mem_iff.1 hb) c
        (hp.mem_iff.1 hc),
      fun a ha b hb c hc => hk.2.1.2.2 a (hp.mem_iff.1 ha) b (hp.mem_iff.1 hb) c
        (hp.mem_iff.1 hc)⟩
  have h1 := srt.sorted keys _ hswo
  have hpermS : (srt.sortSlice keys (fun a b => GoOrdered.lt a b)).Perm (Keys m) :=
    (srt.perm keys _).trans hp
  have hdist : (Keys m).Pairwise
      (fun a b => GoOrdered.eq a b = false ∨ GoOrdered.eq b a = false) := by
    unfold Keys
    rw [List.pairwise_map]
    exact m.distinct.imp Or.inl
  have hdistS : (srt.sortSlice keys (fun a b => GoOrdered.lt a b)).Pairwise
      (fun a b => GoOrdered.eq a b = false ∨ GoOrdered.eq b a = false) :=
    (hpermS.pairwise_iff (fun h => h.symm)).2 hdist
  refine (h1.and hdistS).imp_of_mem ?_
  intro a b ha hb hab
  obtain ⟨hnot, hne⟩ := hab
  rcases hk.2.2 a (hpermS.mem_iff.1 ha) b (hpermS.mem_iff.1 hb) with h | h | h
  · exact h
  · rw [h] at hnot
    exact absurd hnot (by decide)
  · rcases hne with h2 | h2
    · rw [h.1] at h2
      exact absurd h2 (by decide)
    · rw [h.2] at h2
      exact absurd h2 (by decide)

/-- When the keys of a map can be compared, sorting by `<` forgets the order the keys came
in and which sort was used: any two enumerations of the keys are sorted to the same
list. -/
theorem sortSlice_eq_of_comparable {K V : Type} [GoOrdered K] (srt1 srt2 : SliceSorter K)
    (m : GoMap K V) (keys1 keys2 : List K) (hp1 : keys1.Perm (Keys m))
    (hp2 : keys2.Perm (Keys m)) (hk : ComparableKeys (Keys m)) :
    srt1.sortSlice keys1 (fun a b => GoOrdered.lt a b) =
      srt2.sortSlice keys2 (fun a b => GoOrdered.lt a b) := by
  have h1 := sortSlice_ascending_of_comparable srt1 m keys1 hp1 hk
  have h2 := sortSlice_ascending_of_comparable srt2 m keys2 hp2 hk
  have hperm1 : (srt1.sortSlice keys1 (fun a b => GoOrdered.lt a b)).Perm (Keys m) :=
    (srt1.perm keys1 _).trans hp1
  have hperm2 : (srt2.sortSlice keys2 (fun a b => GoOrdered.lt a b)).Perm (Keys m) :=
    (srt2.perm keys2 _).trans hp2
  haveI : IsAntisymm K (fun a b => GoOrdered.lt a b = true ∧ a ∈ Keys m ∧ b ∈ Keys m) :=
    ⟨fun a b hab hba => by
      have haa := hk.2.1.2.1 a hab.2.1 b hab.2.2 a hab.2.1 hab.1 hba.1
      rw [hk.2.1.1 a hab.2.1] at haa
      exact absurd haa (by decide)⟩
  have h1m : (srt1.sortSlice keys1 (fun a b => GoOrdered.lt a b)).Pairwise
      (fun a b => GoOrdered.lt a b = true ∧ a ∈ Keys m ∧ b ∈ Keys m) :=
    h1.imp_of_mem (fun ha hb h => ⟨h, hperm1.mem_iff.1 ha, hperm1.mem_iff.1 hb⟩)
  have h2m : (srt2.sortSlice keys2 (fun a b => GoOrdered.lt a b)).Pairwise
      (fun a b => GoOrdered.lt a b = true ∧ a ∈ Keys m ∧ b ∈ Keys m) :=
    h2.imp_of_mem (fun ha hb h => ⟨h, hperm2.mem_iff.1 ha, hperm2.mem_iff.1 hb⟩)
  exact List.eq_of_perm_of_sorted (hperm1.trans hperm2.symm) h1m h2m

/-- The result of `OrderedValues` is the list of the values under the sorted keys. -/
theorem OrderedValues_eq_map {K V : Type} [GoOrdered K] [Inhabited V]
    (srt : SliceSorter K) (m : GoMap K V) :
    OrderedValues srt m =
      (srt.sortSlice (Keys m) (fun a b => GoOrdered.lt a b)).map m.index := by
  simp [OrderedValues, OrderedValuesOf, foldl_append_map]

/-- Whatever the key type, `OrderedValues` returns as many elements as the map has
keys. -/
theorem OrderedValues_length {K V : Type} [GoOrdered K] [Inhabited V]
    (srt : SliceSorter K) (m : GoMap K V) : (OrderedValues srt m).length = m.len := by
  rw [OrderedValues_eq_map, List.length_map, (srt.perm (Keys m) _).length_eq]
  simp [Keys, GoMap.len]

/-- Whatever the key type, the elements of `OrderedValues` are the results of indexing the
map with its keys. -/
theorem mem_OrderedValues_iff_index {K V : Type} [GoOrdered K] [Inhabited V]
    (srt : SliceSorter K) (m : GoMap K V) (v : V) :
    v ∈ OrderedValues srt m ↔ ∃ k, k ∈ Keys m ∧ m.index k = v := by
  rw [OrderedValues_eq_map, List.mem_map]
  constructor
  · rintro ⟨k, hk, hv⟩
    exact ⟨k, (srt.perm (Keys m) _).mem_iff.1 hk, hv⟩
  · rintro ⟨k, hk, hv⟩
    exact ⟨k, (srt.perm (Keys m) _).mem_iff.2 hk, hv⟩

/-- When every key of the map is `==` to itself (no key is NaN), the values that
`OrderedValues` lists are exactly the values stored in the map. -/
theorem mem_OrderedValues_iff_stored {K V : Type} [GoOrdered K] [Inhabited V]
    (srt : SliceSorter K) (m : GoMap K V)
    (hkeys : ∀ k, k ∈ Keys m → GoOrdered.eq k k = true) (v : V) :
    v ∈ OrderedValues srt m ↔ ∃ k, (k, v) ∈ m.entries := by
  rw [mem_OrderedValues_iff_index]
  constructor
  · rintro ⟨k, hk, hv⟩
    obtain ⟨e, he, hek⟩ := List.mem_map.1 hk
    have hl := m.lookup_of_mem_entries e.1 e.2 he (by rw [hek]; exact hkeys k hk)
    rw [hek] at hl
    refine ⟨k, ?_⟩
    have hv2 : e.2 = v := by rw [← hv, GoMap.index, hl]; rfl
    rw [← hv2, ← hek]
    exact he
  · rintro ⟨k, hk⟩
    have hmem : k ∈ Keys m := List.mem_map.2 ⟨(k, v), hk, rfl⟩
    refine ⟨k, hmem, ?_⟩
    rw [GoMap.index, m.lookup_of_mem_entries k v hk (hkeys k hmem)]
    rfl

/-- On a key of the map that is `==` to itself, the index expression returns the value
stored with the key, and the comma-ok lookup finds it. -/
theorem GoMap.index_of_mem_Keys {K V : Type} [GoOrdered K] [Inhabited V] (m : GoMap K V)
    (k : K) (hk : k ∈ Keys m) (hrefl : GoOrdered.eq k k = true) :
    (k, m.index k) ∈ m.entries ∧ m.lookup k = some (m.index k) := by
  obtain ⟨e, he, hek⟩ := List.mem_map.1 hk
  have hmem : (k, e.2) ∈ m.entries := by
    rw [← hek]
    exact he
  have hl := m.lookup_of_mem_entries k e.2 hmem hrefl
  have hi : m.index k = e.2 := by rw [GoMap.index, hl]; rfl
  rw [hi]
  exact ⟨hmem, hl⟩

/-- Two maps with the same entries, iterated in different orders, index alike on a key that
is `==` to itself. -/
theorem GoMap.index_perm_of_refl {K V : Type} [GoOrdered K] [Inhabited V]
    (m1 m2 : GoMap K V) (hp : m1.entries.Perm m2.entries) (k : K) (hk : k ∈ Keys m1)
    (hrefl : GoOrdered.eq k k = true) : m1.index k = m2.index k := by
  have h1 := (m1.index_of_mem_Keys k hk hrefl).1
  have h2 := m2.lookup_of_mem_entries k (m1.index k) (hp.mem_iff.1 h1) hrefl
  show m1.index k = (m2.lookup k).getD default
  rw [h2]
  rfl

/-- Sorting by `<` forgets the order the keys came in, and which sort was used: two lists
of distinct keys that are rearrangements of each other are sorted to the same list. -/
theorem sortSlice_eq_of_perm {K : Type} [LinearOrder K] (srt1 srt2 : SliceSorter K)
    (keys1 keys2 : List K) (hnd : keys1.Nodup) (hp : keys1.Perm keys2) :
    srt1.sortSlice keys1 (fun a b => GoOrdered.lt a b) =
      srt2.sortSlice keys2 (fun a b => GoOrdered.lt a b) := by
  have hnd2 : keys2.Nodup := hp.nodup_iff.1 hnd
  have h1 := sortSlice_strictly_ascending srt1 keys1 hnd
  have h2 := sortSlice_strictly_ascending srt2 keys2 hnd2
  have hperm : (srt1.sortSlice keys1 (fun a b => GoOrdered.lt a b)).Perm
      (srt2.sortSlice keys2 (fun a b => GoOrdered.lt a b)) :=
    ((srt1.perm keys1 _).trans hp).trans (srt2.perm keys2 _).symm
  exact List.eq_of_perm_of_sorted hperm h1 h2

/-- On a linearly ordered key type `OrderedValues` gives the same result on two maps with
the same entries, whatever their iteration orders and whichever sorts are used. -/
theorem OrderedValues_eq_of_entries_perm {K V : Type} [LinearOrder K] [Inhabited V]
    (srt1 srt2 : SliceSorter K) (m1 m2 : GoMap K V) (hp : m1.entries.Perm m2.entries) :
    OrderedValues srt1 m1 = OrderedValues srt2 m2 := by
  have hk : (Keys m1).Perm (Keys m2) := hp.map Prod.fst
  rw [OrderedValues_eq_map, OrderedValues_eq_map,
    sortSlice_eq_of_perm srt1 srt2 (Keys m1) (Keys m2) m1.nodup_Keys hk]
  apply List.map_congr_left
  intro k _
  exact GoMap.index_perm m1 m2 hp k

/-- The number written out in `minusTwoAndAHalf` is -5/2. -/
theorem minusTwoAndAHalf_eq : minusTwoAndAHalf = -5 / 2 := by
  rw [minusTwoAndAHalf, Rat.mk'_eq_divInt, Rat.divInt_eq_div]
  norm_num

/-! ## Lemmas on the fake user data -/

/-- The keys of the user map, in the order the loop leaves them. -/
theorem Keys_GetUserData : Keys GetUserData = [0, 1, 2, 3, 4, 5, 6, 7, 8, 9] := by
  decide

/-- An integer is a key of the user map exactly when it lies between 0 and 9. -/
theorem mem_Keys_GetUserData_iff (k : Int) : k ∈ Keys GetUserData ↔ 0 ≤ k ∧ k ≤ 9 := by
  rw [Keys_GetUserData]
  simp only [List.mem_cons, List.mem_singleton, List.not_mem_nil, or_false]
  omega

/-- The record under each of the ten keys, and the text of the key: one decimal digit. -/
theorem GetUserData_table : ∀ i : Fin 10,
    GetUserData.lookup (Int.ofNat i.1) =
      some ⟨Sprint (Int.ofNat i.1), "User " ++ Sprint (Int.ofNat i.1),
        "User" ++ Sprint (Int.ofNat i.1)⟩ ∧
    Sprint (Int.ofNat i.1) = String.singleton (Nat.digitChar i.1) := by
  decide

/-- Read back as a number, the text of each of the ten keys is the key: one digit, whose
value (its code minus the code 48 of the digit 0) is the key. -/
theorem Sprint_digit_value : ∀ i : Fin 10,
    (Sprint (Int.ofNat i.1)).data.map (fun c => (c.toNat : Int) - 48) = [Int.ofNat i.1] := by
  decide

/-- The ten keys have ten different texts. -/
theorem Sprint_injective_on_keys : ∀ i j : Fin 10,
    Sprint (Int.ofNat i.1) = Sprint (Int.ofNat j.1) → i = j := by
  decide

/-- An integer between 0 and 9 is one of the ten loop counters. -/
theorem key_eq_ofNat (k : Int) (h0 : 0 ≤ k) (h9 : k ≤ 9) :
    ∃ i : Fin 10, k = Int.ofNat i.1 ∧ k.toNat = i.1 :=
  ⟨⟨k.toNat, by omega⟩, by simp only [Int.ofNat_eq_coe]; omega, rfl⟩

/-- The sorted keys of the user map are 0, 1, ..., 9, whichever sort is used. -/
theorem sortSlice_Keys_GetUserData (srt : SliceSorter Int) :
    srt.sortSlice (Keys GetUserData) (fun a b => GoOrdered.lt a b) =
      [0, 1, 2, 3, 4, 5, 6, 7, 8, 9] := by
  rw [sortSlice_eq_of_perm srt (insertionSorter Int) (Keys GetUserData) (Keys GetUserData)
    GetUserData.nodup_Keys (List.Perm.refl _)]
  decide

/-- Whichever sort is used, `OrderedValues` lists the user map by ascending key. -/
theorem OrderedValues_GetUserData (srt : SliceSorter Int) :
    OrderedValues srt GetUserData =
      (List.range 10).map (fun i => GetUserData.index (Int.ofNat i)) := by
  rw [OrderedValues_eq_map, sortSlice_Keys_GetUserData]
  decide

/-- The keys of the map with the NaN key, in the iteration order -2.5, NaN, 1. -/
theorem Keys_nanMapB :
    Keys nanMapB = [Float64Key.num minusTwoAndAHalf, Float64Key.nan, Float64Key.num 1] := by
  decide

/-! ## The claims -/

/-- C1: for every map `m` whose keys can be compared (for the key types of Go: no key is
NaN), `OrderedValues(m)` returns the values of `m` in strictly ascending key order: it has
as many elements as `m` has keys, and there is a strictly ascending arrangement `ks` of
the keys of `m` such that the i-th element of the result is `m[ks[i]]`, the value stored
under the i-th smallest key. -/
theorem OrderedValues_ascending_by_key {K V : Type} [GoOrdered K] [Inhabited V]
    (srt : SliceSorter K) (m : GoMap K V) (hk : ComparableKeys (Keys m)) :
    (OrderedValues srt m).length = m.len ∧
    ∃ ks : List K,
      ks.Pairwise (fun a b => GoOrdered.lt a b = true) ∧
      ks.Perm (Keys m) ∧
      (∀ k, k ∈ ks ↔ k ∈ Keys m) ∧
      ks.length = m.len ∧
      OrderedValues srt m = ks.map m.index ∧
      (∀ i : Nat, (OrderedValues srt m)[i]? = (ks[i]?).map m.index) ∧
      (∀ i : Nat, (OrderedValues srt m)[i]? = (ks[i]?).bind m.lookup) ∧
      (∀ k, k ∈ ks → (k, m.index k) ∈ m.entries) := by
  have hperm := srt.perm (Keys m) (fun a b => GoOrdered.lt a b)
  have hlen : (srt.sortSlice (Keys m) (fun a b => GoOrdered.lt a b)).length = m.len := by
    rw [hperm.length_eq]
    simp [Keys, GoMap.len]
  refine ⟨OrderedValues_length srt m, ?_⟩
  refine ⟨srt.sortSlice (Keys m) (fun a b => GoOrdered.lt a b),
    sortSlice_ascending_of_comparable srt m (Keys m) (List.Perm.refl _) hk, hperm,
    fun k => hperm.mem_iff, hlen, OrderedValues_eq_map srt m, ?_, ?_, ?_⟩
  · intro i
    rw [OrderedValues_eq_map, List.getElem?_map]
  · intro i
    rw [OrderedValues_eq_map, List.getElem?_map]
    cases hki : (srt.sortSlice (Keys m) (fun a b => GoOrdered.lt a b))[i]? with
    | none => rfl
    | some k =>
      have hmem : k ∈ Keys m := hperm.mem_iff.1 (List.getElem?_mem hki)
      simp [(m.index_of_mem_Keys k hmem (hk.1 k hmem)).2]
  · intro k hks
    have hmem : k ∈ Keys m := hperm.mem_iff.1 hks
    exact (m.index_of_mem_Keys k hmem (hk.1 k hmem)).1

/-- The map `map[float64]string{1: "a", -2.5: "b"}`, which has no NaN key and is iterated
in the order 1, -2.5: the two values come out in the order of the keys -2.5, 1. -/
theorem OrderedValues_ascending_by_key_witness :
    ComparableKeys (Keys floatMap) ∧
    Keys floatMap = [Float64Key.num 1, Float64Key.num minusTwoAndAHalf] ∧
    (OrderedValues (insertionSorter Float64Key) floatMap).length = 2 ∧
    OrderedValues (insertionSorter Float64Key) floatMap = ["b", "a"] :=
  ⟨(comparableKeys_float_iff _).2 (by decide), by decide,
    ((OrderedValues_ascending_by_key (insertionSorter Float64Key) floatMap
      ((comparableKeys_float_iff _).2 (by decide))).1).trans (by decide),
    by decide⟩

/-- C3: for every slice `s` and condition `c`, `Where(s, c)` is the list filter of `s` by
`c`: every element of the result satisfies `c`, the result is a subsequence of `s` (the
relative order of `s` is kept), and every value that satisfies `c` occurs in the result as
many times as in `s`. -/
theorem Where_all_and_only_matches {T : Type} [DecidableEq T] (s : List T) (c : T → Bool) :
    Where s c = s.filter c ∧
    (∀ x, x ∈ Where s c → c x = true) ∧
    (∀ x, x ∈ Where s c ↔ x ∈ s ∧ c x = true) ∧
    (∀ x, (Where s c).count x = if c x = true then s.count x else 0) ∧
    (Where s c).Sublist s := by
  refine ⟨Where_eq_filter s c, ?_, ?_, ?_, ?_⟩
  · intro x hx
    rw [Where_eq_filter, List.mem_filter] at hx
    exact hx.2
  · intro x
    rw [Where_eq_filter, List.mem_filter]
  · intro x
    rw [Where_eq_filter, count_filter_ite]
  · rw [Where_eq_filter]
    exact List.filter_sublist _

/-- C8: for every slice `s` and transformation `f`, `Transform(s, f)` is the list map of
`f` over `s`: it has the length of `s` and its i-th element is `f(s[i])` for every index
`i` (and there is no i-th element where `s` has none). -/
theorem Transform_applies_to_every_item {T U : Type} (s : List T) (f : T → U) :
    Transform s f = s.map f ∧
    (Transform s f).length = s.length ∧
    (∀ i : Nat, (Transform s f)[i]? = (s[i]?).map f) := by
  refine ⟨Transform_eq_map s f, ?_, ?_⟩
  · rw [Transform_eq_map, List.length_map]
  · intro i
    rw [Transform_eq_map, List.getElem?_map]

/-- C9: for every map `m` whose keys can be compared (for the key types of Go: no key is
NaN) and every transformation `f`, `TransformValues(m, f)` equals
`Transform(OrderedValues(m), f)`, has as many elements as `m` has keys, holds `f(v)` for
every value `v` stored in `m`, and its i-th element is `f` applied to the value stored
under the i-th smallest key: there is a strictly ascending arrangement `ks` of the keys of
`m` with i-th element `f(m[ks[i]])`. -/
theorem TransformValues_applies_to_every_value {K V W : Type} [GoOrdered K] [Inhabited V]
    (srt : SliceSorter K) (m : GoMap K V) (f : V → W) (hk : ComparableKeys (Keys m)) :
    TransformValues srt m f = Transform (OrderedValues srt m) f ∧
    (TransformValues srt m f).length = m.len ∧
    (∀ k v, (k, v) ∈ m.entries → f v ∈ TransformValues srt m f) ∧
    ∃ ks : List K,
      ks.Pairwise (fun a b => GoOrdered.lt a b = true) ∧
      ks.Perm (Keys m) ∧
      (∀ k, k ∈ ks ↔ k ∈ Keys m) ∧
      TransformValues srt m f = ks.map (fun k => f (m.index k)) ∧
      (∀ i : Nat, (TransformValues srt m f)[i]? = (ks[i]?).map (fun k => f (m.index k))) ∧
      (∀ i : Nat, (TransformValues srt m f)[i]? = ((ks[i]?).bind m.lookup).map f) ∧
      (∀ k, k ∈ ks → (k, m.index k) ∈ m.entries) := by
  have hperm := srt.perm (Keys m) (fun a b => GoOrdered.lt a b)
  have heq : TransformValues srt m f =
      (srt.sortSlice (Keys m) (fun a b => GoOrdered.lt a b)).map
        (fun k => f (m.index k)) := by
    simp [TransformValues, Transform_eq_map, OrderedValues_eq_map]
  refine ⟨rfl, ?_, ?_, srt.sortSlice (Keys m) (fun a b => GoOrdered.lt a b),
    sortSlice_ascending_of_comparable srt m (Keys m) (List.Perm.refl _) hk, hperm,
    fun k => hperm.mem_iff, heq, ?_, ?_, ?_⟩
  · rw [heq, List.length_map, hperm.length_eq]
    simp [Keys, GoMap.len]
  · intro k v hv
    rw [TransformValues, Transform_eq_map]
    exact List.mem_map_of_mem f ((mem_OrderedValues_iff_stored srt m hk.1 v).2 ⟨k, hv⟩)
  · intro i
    rw [heq, List.getElem?_map]
  · intro i
    rw [heq, List.getElem?_map]
    cases hki : (srt.sortSlice (Keys m) (fun a b => GoOrdered.lt a b))[i]? with
    | none => rfl
    | some k =>
      have hmem : k ∈ Keys m := hperm.mem_iff.1 (List.getElem?_mem hki)
      simp [(m.index_of_mem_Keys k hmem (hk.1 k hmem)).2]
  · intro k hks
    have hmem : k ∈ Keys m := hperm.mem_iff.1 hks
    exact (m.index_of_mem_Keys k hmem (hk.1 k hmem)).1

/-- The map `map[float64]string{1: "a", -2.5: "b"}`, which has no NaN key and is iterated
in the order 1, -2.5, with `f(s) = s + "!"`: both values are transformed, in the order of
the keys -2.5, 1. -/
theorem TransformValues_applies_to_every_value_witness :
    ComparableKeys (Keys floatMap) ∧
    (TransformValues (insertionSorter Float64Key) floatMap (fun s => s ++ "!")).length = 2 ∧
    TransformValues (insertionSorter Float64Key) floatMap (fun s => s ++ "!") =
      ["b!", "a!"] :=
  ⟨(comparableKeys_float_iff _).2 (by decide),
    ((TransformValues_applies_to_every_value (insertionSorter Float64Key) floatMap
      (fun s => s ++ "!") ((comparableKeys_float_iff _).2 (by decide))).2.1).trans
      (by decide),
    by decide⟩

/-- C5: for every slice `s` and condition `c`, `Single(s, c)` returns a value together
with a nil error if and only if exactly one position of `s` holds an element satisfying
`c` (the same for the nil error alone), and then the value is the element of `s` at that
position. -/
theorem Single_value_iff_exactly_one {T : Type} (s : List T) (c : T → Bool) :
    ((∃ v, Single s c = (some v, none)) ↔ ∃! i : Fin s.length, c (s.get i) = true) ∧
    ((Single s c).2 = none ↔ ∃! i : Fin s.length, c (s.get i) = true) ∧
    (∀ i : Fin s.length, c (s.get i) = true →
      (∀ j : Fin s.length, c (s.get j) = true → j = i) →
      Single s c = (some (s.get i), none)) := by
  obtain ⟨h0, h1, h2⟩ := Single_by_count s c
  have hone := (filter_length_one_iff s c).trans (unique_position_iff s c)
  have hval : ∀ i : Fin s.length, c (s.get i) = true →
      (∀ j : Fin s.length, c (s.get j) = true → j = i) →
      Single s c = (some (s.get i), none) := by
    intro i hi huniq
    have hlen : (s.filter c).length = 1 := hone.2 ⟨i, hi, huniq⟩
    obtain ⟨x, hx⟩ := List.length_eq_one.1 hlen
    have hmem : s.get i ∈ s.filter c := List.mem_filter.2 ⟨List.get_mem s i.1 i.2, hi⟩
    rw [hx, List.mem_singleton] at hmem
    rw [hmem]
    exact h1 x hx
  have hcases : (s.filter c).length = 0 ∨ (s.filter c).length = 1 ∨
      2 ≤ (s.filter c).length := by omega
  refine ⟨⟨?_, ?_⟩, ⟨?_, ?_⟩, hval⟩
  · rintro ⟨v, hv⟩
    rcases hcases with h | h | h
    · rw [h0 h] at hv
      simp at hv
    · exact hone.1 h
    · rw [h2 h] at hv
      simp at hv
  · rintro ⟨i, hi, huniq⟩
    exact ⟨s.get i, hval i hi huniq⟩
  · intro hnil
    rcases hcases with h | h | h
    · rw [h0 h] at hnil
      simp at hnil
    · exact hone.1 h
    · rw [h2 h] at hnil
      simp at hnil
  · rintro ⟨i, hi, huniq⟩
    rw [hval i hi huniq]

/-- C6: for every slice `s` (the empty one too) and condition `c` that no element of `s`
satisfies, `Single(s, c)` returns a nil match and an error whose message is exactly
"no items match the condition". -/
theorem Single_no_match {T : Type} (s : List T) (c : T → Bool)
    (h : ∀ x, x ∈ s → c x = false) :
    Single s c = (none, some "no items match the condition") := by
  have hlen : (s.filter c).length = 0 := by
    rw [filter_length_zero_iff]
    intro i x hx
    exact h x (List.getElem?_mem hx)
  exact (Single_by_count s c).1 hlen

/-- The test "no matches" of `linq_test.go` (five zeros, looking for a 1), and the empty
slice. -/
theorem Single_no_match_witness :
    (∀ x, x ∈ [0, 0, 0, 0, 0] → (fun item : Int => decide (item = 1)) x = false) ∧
    Single [0, 0, 0, 0, 0] (fun item : Int => decide (item = 1)) =
      (none, some "no items match the condition") ∧
    Single ([] : List Int) (fun item : Int => decide (item = 1)) =
      (none, some "no items match the condition") :=
  ⟨by decide, Single_no_match [0, 0, 0, 0, 0] _ (by decide),
    Single_no_match [] _ (by simp)⟩

/-- C7: for every slice `s` and condition `c` such that two different positions of `s`
hold elements satisfying `c` (equal values or not), `Single(s, c)` returns a nil match and
an error whose message is exactly "multiple items match the condition". -/
theorem Single_multiple_matches {T : Type} (s : List T) (c : T → Bool)
    (i j : Fin s.length) (hij : i ≠ j) (hi : c (s.get i) = true)
    (hj : c (s.get j) = true) :
    Single s c = (none, some "multiple items match the condition") := by
  obtain ⟨_, _, h2⟩ := Single_by_count s c
  apply h2
  have hone := (filter_length_one_iff s c).trans (unique_position_iff s c)
  have hzero := filter_length_zero_iff s c
  by_contra hlt
  have hcases : (s.filter c).length = 0 ∨ (s.filter c).length = 1 := by omega
  rcases hcases with h | h
  · have := hzero.1 h i.1 (s.get i) (by simp)
    rw [hi] at this
    exact absurd this (by decide)
  · obtain ⟨k, _, huniq⟩ := hone.1 h
    exact hij ((huniq i hi).trans (huniq j hj).symm)

/-- The test "multiple matches" of `linq_test.go`: five zeros, looking for a 0; positions 0
and 1 hold equal values. -/
theorem Single_multiple_matches_witness :
    ([0, 0, 0, 0, 0] : List Int)[0]? = some 0 ∧ ([0, 0, 0, 0, 0] : List Int)[1]? = some 0 ∧
    Single [0, 0, 0, 0, 0] (fun item : Int => decide (item = 0)) =
      (none, some "multiple items match the condition") :=
  ⟨rfl, rfl,
    Single_multiple_matches [0, 0, 0, 0, 0] (fun item : Int => decide (item = 0))
      ⟨0, by decide⟩ ⟨1, by decide⟩ (by decide) (by decide) (by decide)⟩

/-- C4: for every data source and every limit `L >= 0`, each of the five collection
resolvers (`users`, `albums`, `photos`, `User.albums`, `Album.photos`) returns the first
`min(L, N)` entries, in the same order, of what it returns without a limit, `N` being the
size of that, so the result has length `min(L, N)`; and without a limit the result is the
collection itself (top-level fields without filter) or all its entries with the given
foreign key. -/
theorem collection_resolvers_limit (ds : DataSource) (userid albumid : Option Int)
    (parentUser parentAlbum : Int) (L : Int) (hL : 0 ≤ L) :
    (users ds (some L) = (users ds none).take (min L.toNat (users ds none).length) ∧
      ((users ds (some L)).length : Int) = min L ((users ds none).length : Int)) ∧
    (albums ds userid (some L) =
        (albums ds userid none).take (min L.toNat (albums ds userid none).length) ∧
      ((albums ds userid (some L)).length : Int) =
        min L ((albums ds userid none).length : Int)) ∧
    (photos ds albumid (some L) =
        (photos ds albumid none).take (min L.toNat (photos ds albumid none).length) ∧
      ((photos ds albumid (some L)).length : Int) =
        min L ((photos ds albumid none).length : Int)) ∧
    (userAlbums ds parentUser (some L) =
        (userAlbums ds parentUser none).take
          (min L.toNat (userAlbums ds parentUser none).length) ∧
      ((userAlbums ds parentUser (some L)).length : Int) =
        min L ((userAlbums ds parentUser none).length : Int)) ∧
    (albumPhotos ds parentAlbum (some L) =
        (albumPhotos ds parentAlbum none).take
          (min L.toNat (albumPhotos ds parentAlbum none).length) ∧
      ((albumPhotos ds parentAlbum (some L)).length : Int) =
        min L ((albumPhotos ds parentAlbum none).length : Int)) ∧
    (users ds none = ds.users ∧ albums ds none none = ds.albums ∧
      photos ds none none = ds.photos ∧
      userAlbums ds parentUser none =
        ds.albums.filter (fun a => decide (a.UserID = parentUser)) ∧
      albumPhotos ds parentAlbum none =
        ds.photos.filter (fun p => decide (p.AlbumID = parentAlbum))) :=
  ⟨resolveCollection_nonneg _ _ _ L hL, resolveCollection_nonneg _ _ _ L hL,
    resolveCollection_nonneg _ _ _ L hL, resolveCollection_nonneg _ _ _ L hL,
    resolveCollection_nonneg _ _ _ L hL, rfl, rfl, rfl, rfl, rfl⟩

/-- The scenario of section 8 on a small data source: two users, three albums (two of user
0), three photos; `albums(userid:0, limit:1)` is the lowest-id album of user 0. -/
theorem collection_resolvers_limit_witness :
    (0 : Int) ≤ 1 ∧
    albums
      { users := [⟨"0", "User 0", "User0"⟩, ⟨"1", "User 1", "User1"⟩],
        albums := [⟨0, 0, "a0"⟩, ⟨1, 1, "a1"⟩, ⟨2, 0, "a2"⟩],
        photos := [⟨0, 0, "p0"⟩, ⟨1, 2, "p1"⟩, ⟨2, 0, "p2"⟩] }
      (some 0) (some 1) = [⟨0, 0, "a0"⟩] :=
  ⟨by decide,
    ((collection_resolvers_limit
      { users := [⟨"0", "User 0", "User0"⟩, ⟨"1", "User 1", "User1"⟩],
        albums := [⟨0, 0, "a0"⟩, ⟨1, 1, "a1"⟩, ⟨2, 0, "a2"⟩],
        photos := [⟨0, 0, "p0"⟩, ⟨1, 2, "p1"⟩, ⟨2, 0, "p2"⟩] }
      (some 0) none 0 0 1 (by decide)).2.1.1).trans (by decide)⟩

/-- C10: the map returned by `GetUserData` has exactly ten keys, and an integer is a key
of it exactly when it lies between 0 and 9: nothing below 0, nothing above 9, nothing
missing in between. -/
theorem GetUserData_keys_zero_to_nine :
    GetUserData.len = 10 ∧
    (∀ k : Int, (GetUserData.lookup k).isSome = true ↔ 0 ≤ k ∧ k ≤ 9) ∧
    (∀ k : Int, k ∈ Keys GetUserData ↔ 0 ≤ k ∧ k ≤ 9) := by
  have hkeys : Keys GetUserData = [0, 1, 2, 3, 4, 5, 6, 7, 8, 9] := by decide
  have hmem : ∀ k : Int, k ∈ Keys GetUserData ↔ 0 ≤ k ∧ k ≤ 9 := by
    intro k
    rw [hkeys]
    simp only [List.mem_cons, List.mem_singleton, List.not_mem_nil, or_false]
    omega
  refine ⟨by decide, ?_, hmem⟩
  intro k
  rw [GetUserData.lookup_isSome_iff_mem_Keys k]
  exact hmem k

/-- C11: for every id `i` between 0 and 9, looking up `i` in the map returned by
`GetUserData` finds the canonical record: ID the decimal rendering of `i` (one digit), Name
"User " followed by it, Username "User" followed by it; and a map with the same entries in
any other iteration order, as another call may return it, gives the same record. -/
theorem GetUserData_canonical_record (i : Int) (h0 : 0 ≤ i) (h9 : i ≤ 9) :
    GetUserData.lookup i = some ⟨Sprint i, "User " ++ Sprint i, "User" ++ Sprint i⟩ ∧
    GetUserData.index i = ⟨Sprint i, "User " ++ Sprint i, "User" ++ Sprint i⟩ ∧
    Sprint i = String.singleton (Nat.digitChar i.toNat) ∧
    (∀ m : GoMap Int User, m.entries.Perm GetUserData.entries →
      m.lookup i = GetUserData.lookup i ∧ m.index i = GetUserData.index i) := by
  obtain ⟨n, hn, hnat⟩ := key_eq_ofNat i h0 h9
  have ht := GetUserData_table n
  rw [← hn, ← hnat] at ht
  refine ⟨ht.1, ?_, ht.2, ?_⟩
  · simp [GoMap.index, ht.1]
  · intro m hp
    have hl : m.lookup i = GetUserData.lookup i := GoMap.lookup_perm m GetUserData hp i
    exact ⟨hl, by simp [GoMap.index, hl]⟩

/-- The entry "3" of the table "Get user by ID". -/
theorem GetUserData_canonical_record_witness :
    (0 : Int) ≤ 3 ∧ (3 : Int) ≤ 9 ∧
    GetUserData.lookup 3 = some ⟨"3", "User 3", "User3"⟩ :=
  ⟨by decide, by decide,
    (GetUserData_canonical_record 3 (by decide) (by decide)).1.trans (by decide)⟩

/-- C12: for every integer id below 0 or above 9, the id is not a key of the map returned
by `GetUserData`: the comma-ok lookup finds nothing and the index expression gives the
zero value `User{}`, all fields empty; there is no error to return. -/
theorem GetUserData_absent_id (id : Int) (h : id < 0 ∨ 9 < id) :
    id ∉ Keys GetUserData ∧
    GetUserData.lookup id = none ∧
    GetUserData.index id = ⟨"", "", ""⟩ := by
  have hnot : id ∉ Keys GetUserData := by
    rw [mem_Keys_GetUserData_iff]
    omega
  have hnone : GetUserData.lookup id = none := by
    cases hl : GetUserData.lookup id with
    | none => rfl
    | some u =>
      have hs : (GetUserData.lookup id).isSome = true := by rw [hl]; rfl
      exact absurd ((GetUserData.lookup_isSome_iff_mem_Keys id).1 hs) hnot
  refine ⟨hnot, hnone, ?_⟩
  rw [GoMap.index, hnone]
  rfl

/-- The test "Invalid ID": id -1. -/
theorem GetUserData_absent_id_witness :
    ((-1 : Int) < 0 ∨ (9 : Int) < -1) ∧
    GetUserData.lookup (-1) = none ∧ GetUserData.index (-1) = ⟨"", "", ""⟩ :=
  ⟨by decide, (GetUserData_absent_id (-1) (by decide)).2⟩

/-- C14: in the map returned by `GetUserData`, the ID of every user is the key the user is
stored under, written in decimal: it is the rendering of that key, a single digit whose
numeric value is the key; and users stored under different keys have different IDs, so the
ID determines the key. -/
theorem GetUserData_ID_is_key_and_unique :
    (∀ (k : Int) (u : User), GetUserData.lookup k = some u →
      u.ID = Sprint k ∧ u.ID = String.singleton (Nat.digitChar k.toNat) ∧
      u.ID.data.map (fun c => (c.toNat : Int) - 48) = [k]) ∧
    (∀ (k1 k2 : Int) (u1 u2 : User), GetUserData.lookup k1 = some u1 →
      GetUserData.lookup k2 = some u2 → k1 ≠ k2 → u1.ID ≠ u2.ID) ∧
    (∀ (k1 k2 : Int) (u1 u2 : User), GetUserData.lookup k1 = some u1 →
      GetUserData.lookup k2 = some u2 → u1.ID = u2.ID → k1 = k2) := by
  have hid : ∀ (k : Int) (u : User), GetUserData.lookup k = some u →
      ∃ n : Fin 10, k = Int.ofNat n.1 ∧ k.toNat = n.1 ∧ u.ID = Sprint (Int.ofNat n.1) ∧
        Sprint (Int.ofNat n.1) = String.singleton (Nat.digitChar n.1) := by
    intro k u hu
    have hs : (GetUserData.lookup k).isSome = true := by rw [hu]; rfl
    have hk := (mem_Keys_GetUserData_iff k).1
      ((GetUserData.lookup_isSome_iff_mem_Keys k).1 hs)
    obtain ⟨n, hn, hnat⟩ := key_eq_ofNat k hk.1 hk.2
    have ht := GetUserData_table n
    rw [hn, ht.1] at hu
    refine ⟨n, hn, hnat, ?_, ht.2⟩
    rw [← Option.some.inj hu]
  have huniq : ∀ (k1 k2 : Int) (u1 u2 : User), GetUserData.lookup k1 = some u1 →
      GetUserData.lookup k2 = some u2 → u1.ID = u2.ID → k1 = k2 := by
    intro k1 k2 u1 u2 h1 h2 he
    obtain ⟨n1, hn1, _, hu1, _⟩ := hid k1 u1 h1
    obtain ⟨n2, hn2, _, hu2, _⟩ := hid k2 u2 h2
    rw [hu1, hu2] at he
    rw [hn1, hn2, Sprint_injective_on_keys n1 n2 he]
  refine ⟨?_, ?_, huniq⟩
  · intro k u hu
    obtain ⟨n, hn, hnat, hu1, hd⟩ := hid k u hu
    have hv := Sprint_digit_value n
    rw [hn] at hnat ⊢
    refine ⟨hu1, by rw [hu1, hd]; simp, ?_⟩
    rw [hu1]
    exact hv
  · intro k1 k2 u1 u2 h1 h2 hne he
    exact hne (huniq k1 k2 u1 u2 h1 h2 he)

/-- C1 fails on a map with a NaN key. On `map[float64]string{1: "a", -2.5: "b", NaN: "x"}`,
iterated in the order -2.5, NaN, 1, the insertion sort of `sort.Slice` leaves the keys as
they are and `OrderedValues` returns "b", "", "a": the keys are not in ascending order and
the value "x" stored under NaN is replaced by the zero value. Whichever sort is used, "x"
is not in the result, and no strictly ascending arrangement of the keys exists at all. -/
theorem OrderedValues_NaN_key_not_ascending :
    nanMapB.len = 3 ∧ (Float64Key.nan, "x") ∈ nanMapB.entries ∧
    OrderedValues (insertionSorter Float64Key) nanMapB = ["b", "", "a"] ∧
    (∀ srt : SliceSorter Float64Key, "x" ∉ OrderedValues srt nanMapB) ∧
    (∀ srt : SliceSorter Float64Key, ¬ ∃ ks : List Float64Key,
      ks.Pairwise (fun a b => GoOrdered.lt a b = true) ∧
      (∀ k, k ∈ ks ↔ k ∈ Keys nanMapB) ∧
      OrderedValues srt nanMapB = ks.map nanMapB.index) := by
  refine ⟨by decide, by decide, by decide, ?_, ?_⟩
  · intro srt h
    obtain ⟨k, hk, hv⟩ := (mem_OrderedValues_iff_index srt nanMapB "x").1 h
    have hall : ∀ k, k ∈ Keys nanMapB → nanMapB.index k ≠ "x" := by decide
    exact hall k hk hv
  · rintro srt ⟨ks, hsorted, hmem, _⟩
    have hnan : Float64Key.nan ∈ ks := (hmem _).2 (by decide)
    have hone : Float64Key.num 1 ∈ ks := (hmem _).2 (by decide)
    have hsym : Symmetric (fun a b : Float64Key =>
        GoOrdered.lt a b = true ∨ GoOrdered.lt b a = true) := fun _ _ h => h.symm
    have hpair : ks.Pairwise (fun a b : Float64Key =>
        GoOrdered.lt a b = true ∨ GoOrdered.lt b a = true) := hsorted.imp Or.inl
    have hcmp := hpair.forall hsym hnan hone (by decide)
    revert hcmp
    decide

/-- C9 fails on a map with a NaN key. On `map[float64]string{1: "a", -2.5: "b", NaN: "x"}`,
iterated in the order -2.5, NaN, 1, `TransformValues` with `f(s) = s + "!"` returns "b!",
"!", "a!": `f` is applied to the zero value instead of the stored value "x", and the keys
are not in ascending order. Whichever sort is used, `f("x")` is not in the result. -/
theorem TransformValues_NaN_key_skips_stored_value :
    (Float64Key.nan, "x") ∈ nanMapB.entries ∧
    TransformValues (insertionSorter Float64Key) nanMapB (fun s => s ++ "!") =
      ["b!", "!", "a!"] ∧
    (∀ srt : SliceSorter Float64Key,
      "x!" ∉ TransformValues srt nanMapB (fun s => s ++ "!")) := by
  refine ⟨by decide, by decide, ?_⟩
  intro srt h
  rw [TransformValues, Transform_eq_map, List.mem_map] at h
  obtain ⟨u, hu, hf⟩ := h
  obtain ⟨k, hk, hv⟩ := (mem_OrderedValues_iff_index srt nanMapB u).1 hu
  have hall : ∀ k, k ∈ Keys nanMapB → nanMapB.index k ++ "!" ≠ "x!" := by decide
  rw [← hv] at hf
  exact hall k hk hf

/-- C13: whichever sort is used and in whatever order the user map is iterated (`m` is any
map with the entries of `GetUserData()`), `OrderedValues(m)` has exactly 10 elements and
for every `i` from 0 to 9 its i-th element is the user stored under key `i`, whose ID is
the decimal rendering of `i`: the users are listed by ascending id. -/
theorem users_listed_by_ascending_id (srt : SliceSorter Int) (m : GoMap Int User)
    (hp : m.entries.Perm GetUserData.entries) :
    (OrderedValues srt m).length = 10 ∧
    OrderedValues srt m = (List.range 10).map (fun i => GetUserData.index (Int.ofNat i)) ∧
    (∀ i : Nat, i < 10 →
      (OrderedValues srt m)[i]? = m.lookup (Int.ofNat i) ∧
      (OrderedValues srt m)[i]? = GetUserData.lookup (Int.ofNat i) ∧
      ((OrderedValues srt m)[i]?).map User.ID = some (Sprint (Int.ofNat i))) ∧
    (OrderedValues srt m).map User.ID =
      ["0", "1", "2", "3", "4", "5", "6", "7", "8", "9"] := by
  have hov : OrderedValues srt m =
      (List.range 10).map (fun i => GetUserData.index (Int.ofNat i)) := by
    rw [OrderedValues_eq_of_entries_perm srt srt m GetUserData hp]
    exact OrderedValues_GetUserData srt
  refine ⟨?_, hov, ?_, ?_⟩
  · rw [hov]
    decide
  · intro i hi
    rw [hov, GoMap.lookup_perm m GetUserData hp]
    interval_cases i <;> decide
  · rw [hov]
    decide

/-- The user map iterated backwards, from key 9 down to key 0, and sorted by the sort that
is not stable: the IDs still come out from "0" up to "9". -/
theorem users_listed_by_ascending_id_witness :
    GetUserDataBackwards.entries.Perm GetUserData.entries ∧
    Keys GetUserDataBackwards = [9, 8, 7, 6, 5, 4, 3, 2, 1, 0] ∧
    (OrderedValues (reversingSorter Int) GetUserDataBackwards).map User.ID =
      ["0", "1", "2", "3", "4", "5", "6", "7", "8", "9"] :=
  ⟨List.reverse_perm _, by decide,
    (users_listed_by_ascending_id (reversingSorter Int) GetUserDataBackwards
      (List.reverse_perm _)).2.2.2⟩

/-- C15: for every map `m` whose keys can be compared (for the key types of Go: no key is
NaN), in whatever order the keys of `m` are enumerated before the sort (any rearrangement
`keys` of the key list), and whichever sort is used, stable or not, the body of
`OrderedValues` returns the same result; so does `OrderedValues` on a map with the same
entries iterated in another order. -/
theorem OrderedValues_independent_of_iteration_order {K V : Type} [GoOrdered K]
    [Inhabited V] (srt srt2 : SliceSorter K) (m : GoMap K V) (keys : List K)
    (h : keys.Perm (Keys m)) (hk : ComparableKeys (Keys m)) :
    OrderedValuesOf srt m keys = OrderedValues srt m ∧
    OrderedValuesOf srt2 m keys = OrderedValues srt m ∧
    (∀ m2 : GoMap K V, m2.entries.Perm m.entries →
      OrderedValues srt2 m2 = OrderedValues srt m) := by
  refine ⟨?_, ?_, ?_⟩
  · unfold OrderedValues OrderedValuesOf
    simp only []
    rw [sortSlice_eq_of_comparable srt srt m keys (Keys m) h (List.Perm.refl _) hk]
  · unfold OrderedValues OrderedValuesOf
    simp only []
    rw [sortSlice_eq_of_comparable srt2 srt m keys (Keys m) h (List.Perm.refl _) hk]
  · intro m2 hp
    have hkp : (Keys m2).Perm (Keys m) := hp.map Prod.fst
    rw [OrderedValues_eq_map, OrderedValues_eq_map,
      sortSlice_eq_of_comparable srt2 srt m (Keys m2) (Keys m) hkp (List.Perm.refl _) hk]
    apply List.map_congr_left
    intro k hks
    have hmem : k ∈ Keys m := (srt.perm (Keys m) _).mem_iff.1 hks
    exact (GoMap.index_perm_of_refl m m2 hp.symm k hmem (hk.1 k hmem)).symm

/-- The map `map[float64]string{1: "a", -2.5: "b"}`, which has no NaN key and is iterated
in the order 1, -2.5: with its keys taken in the order -2.5, 1 and sorted by the sort that
is not stable, the result is that of the insertion sort on the iteration order of the
map. -/
theorem OrderedValues_independent_of_iteration_order_witness :
    List.Perm [Float64Key.num minusTwoAndAHalf, Float64Key.num 1] (Keys floatMap) ∧
    ComparableKeys (Keys floatMap) ∧
    OrderedValuesOf (reversingSorter Float64Key) floatMap
      [Float64Key.num minusTwoAndAHalf, Float64Key.num 1] = ["b", "a"] ∧
    OrderedValues (insertionSorter Float64Key) floatMap = ["b", "a"] :=
  ⟨by decide, (comparableKeys_float_iff _).2 (by decide),
    ((OrderedValues_independent_of_iteration_order (insertionSorter Float64Key)
      (reversingSorter Float64Key) floatMap
      [Float64Key.num minusTwoAndAHalf, Float64Key.num 1] (by decide)
      ((comparableKeys_float_iff _).2 (by decide))).2.1).trans (by decide),
    by decide⟩

/-- C15 fails on a map with a NaN key. The map
`map[float64]string{1: "a", -2.5: "b", NaN: "x"}` iterated in the orders 1, -2.5, NaN and
-2.5, NaN, 1 and NaN, -2.5, 1 gives, with the insertion sort of `sort.Slice`, the three
different results "b", "a", "" and "b", "", "a" and "", "b", "a"; and on one and the same
map value, enumerating the keys in another order changes the result. -/
theorem OrderedValues_NaN_key_depends_on_iteration_order :
    nanMapA.entries.Perm nanMapB.entries ∧ nanMapA.entries.Perm nanMapC.entries ∧
    OrderedValues (insertionSorter Float64Key) nanMapA = ["b", "a", ""] ∧
    OrderedValues (insertionSorter Float64Key) nanMapB = ["b", "", "a"] ∧
    OrderedValues (insertionSorter Float64Key) nanMapC = ["", "b", "a"] ∧
    (Keys nanMapB).Perm (Keys nanMapA) ∧
    OrderedValuesOf (insertionSorter Float64Key) nanMapA (Keys nanMapB) ≠
      OrderedValues (insertionSorter Float64Key) nanMapA := by
  decide

/-- C16: for every map `m` none of whose keys is NaN (every key is `==` to itself) and
every condition `c`, the lengths of `ValuesWhere(m, c)` and `ValuesWhere(m, not c)` add up
to the number of keys of `m`, every value stored in `m` occurs in exactly one of the two
results, and as often in the two together as in `OrderedValues(m)`; and for every slice `s`
and condition `d`, the lengths of `Where(s, d)` and `Where(s, not d)` add up to the length
of `s`. -/
theorem filters_partition {K V T : Type} [GoOrdered K] [Inhabited V] [DecidableEq V]
    (srt : SliceSorter K) (m : GoMap K V) (c : V → Bool) (s : List T) (d : T → Bool)
    (hkeys : ∀ k, k ∈ Keys m → GoOrdered.eq k k = true) :
    (ValuesWhere srt m c).length + (ValuesWhere srt m (fun v => !c v)).length = m.len ∧
    (∀ v, (∃ k, (k, v) ∈ m.entries) →
      (v ∈ ValuesWhere srt m c ∧ v ∉ ValuesWhere srt m (fun v => !c v)) ∨
      (v ∉ ValuesWhere srt m c ∧ v ∈ ValuesWhere srt m (fun v => !c v))) ∧
    (∀ v, (ValuesWhere srt m c).count v + (ValuesWhere srt m (fun v => !c v)).count v =
      (OrderedValues srt m).count v) ∧
    (Where s d).length + (Where s (fun x => !d x)).length = s.length := by
  refine ⟨?_, ?_, ?_, ?_⟩
  · rw [← OrderedValues_length srt m, ValuesWhere, ValuesWhere, Where_eq_filter,
      Where_eq_filter]
    exact (List.length_eq_length_filter_add c).symm
  · intro v hv
    have hmem := (mem_OrderedValues_iff_stored srt m hkeys v).2 hv
    simp only [ValuesWhere, Where_eq_filter, List.mem_filter]
    cases hc : c v
    · right
      simp [hmem]
    · left
      simp [hmem]
  · intro v
    simp only [ValuesWhere, Where_eq_filter, count_filter_ite]
    cases hc : c v <;> simp
  · rw [Where_eq_filter, Where_eq_filter]
    exact (List.length_eq_length_filter_add d).symm

/-- The map `map[float64]string{1: "a", -2.5: "b"}`, which has no NaN key, filtered by
"equals a" and by its negation: one value each, two keys. -/
theorem filters_partition_witness :
    (∀ k, k ∈ Keys floatMap → GoOrdered.eq k k = true) ∧
    (ValuesWhere (insertionSorter Float64Key) floatMap (fun v => decide (v = "a"))).length +
      (ValuesWhere (insertionSorter Float64Key) floatMap
        (fun v => !decide (v = "a"))).length = 2 ∧
    ValuesWhere (insertionSorter Float64Key) floatMap (fun v => decide (v = "a")) = ["a"] ∧
    ValuesWhere (insertionSorter Float64Key) floatMap (fun v => !decide (v = "a")) = ["b"] :=
  ⟨by decide,
    ((filters_partition (insertionSorter Float64Key) floatMap (fun v => decide (v = "a"))
      ([] : List Nat) (fun _ => true) (by decide)).1).trans (by decide),
    by decide, by decide⟩

/-- C16 fails on a map with a NaN key. On `map[float64]string{1: "a", -2.5: "b", NaN: "x"}`
the value "x" is stored in the map, under NaN, but occurs neither in `ValuesWhere(m, c)`
nor in `ValuesWhere(m, not c)` for `c` = "equals x": the first is empty and the second is
"b", "", "a". -/
theorem ValuesWhere_NaN_key_value_in_neither :
    (Float64Key.nan, "x") ∈ nanMapB.entries ∧
    ValuesWhere (insertionSorter Float64Key) nanMapB (fun v => decide (v = "x")) = [] ∧
    ValuesWhere (insertionSorter Float64Key) nanMapB (fun v => !decide (v = "x")) =
      ["b", "", "a"] ∧
    "x" ∉ ValuesWhere (insertionSorter Float64Key) nanMapB (fun v => decide (v = "x")) ∧
    "x" ∉ ValuesWhere (insertionSorter Float64Key) nanMapB (fun v => !decide (v = "x")) := by
  decide

/-- C17: for every slice `s` and conditions `p` and `q`, filtering by `p` and then by `q`
is filtering by `p && q`; filtering twice by `p` is filtering once; and the two filters can
be applied in either order. -/
theorem Where_composes {T : Type} (s : List T) (p q : T → Bool) :
    Where (Where s p) q = Where s (fun item => p item && q item) ∧
    Where (Where s p) p = Where s p ∧
    Where (Where s p) q = Where (Where s q) p := by
  have hpq : ∀ a b : T → Bool,
      Where (Where s a) b = Where s (fun item => a item && b item) := by
    intro a b
    simp only [Where_eq_filter, List.filter_filter]
    apply List.filter_congr
    intro x _
    exact Bool.and_comm _ _
  refine ⟨hpq p q, ?_, ?_⟩
  · rw [hpq p p]
    simp only [Where_eq_filter]
    apply List.filter_congr
    intro x _
    exact Bool.and_self _
  · rw [hpq p q, hpq q p]
    simp only [Where_eq_filter]
    apply List.filter_congr
    intro x _
    exact Bool.and_comm _ _

/-- The second concrete sort is not stable: of two pairs with equal first components,
compared by first component, the later one comes out first. -/
theorem reversingSorter_not_stable :
    (reversingSorter (Nat × Nat)).sortSlice [(1, 0), (1, 1)]
      (fun a b => decide (a.1 < b.1)) = [(1, 1), (1, 0)] := by
  decide

/-! ## The tests of `utils/linq_test.go`, evaluated on the embedding -/

/-- Test "Transforms each element": the ten numbers 0..9 are rendered in order. -/
theorem linq_test_Transform :
    Transform [0, 1, 2, 3, 4, 5, 6, 7, 8, 9] Sprint =
      ["0", "1", "2", "3", "4", "5", "6", "7", "8", "9"] := by
  decide

/-- Test "Filters slice": of 0..9 the five numbers below 5 are kept. -/
theorem linq_test_Where :
    Where [0, 1, 2, 3, 4, 5, 6, 7, 8, 9] (fun i : Int => decide (i < 5)) =
      [0, 1, 2, 3, 4] := by
  decide

/-- Test "returns the values in order": the map filled from key 9 down to key 0 is listed
from key 0 up to key 9. -/
theorem linq_test_OrderedValues :
    Keys ((List.range 10).foldl
      (fun (m : GoMap Int Int) i => m.insert (9 - Int.ofNat i) (9 - Int.ofNat i))
      GoMap.empty) = [9, 8, 7, 6, 5, 4, 3, 2, 1, 0] ∧
    OrderedValues (insertionSorter Int) ((List.range 10).foldl
      (fun (m : GoMap Int Int) i => m.insert (9 - Int.ofNat i) (9 - Int.ofNat i))
      GoMap.empty) = [0, 1, 2, 3, 4, 5, 6, 7, 8, 9] := by
  decide

/-- Tests "Filters values" and "Transforms each value" on the map `i ↦ i` for 0..9. -/
theorem linq_test_ValuesWhere_TransformValues :
    ValuesWhere (insertionSorter Int) ((List.range 10).foldl
      (fun (m : GoMap Int Int) i => m.insert (Int.ofNat i) (Int.ofNat i))
      GoMap.empty) (fun i : Int => decide (i < 5)) = [0, 1, 2, 3, 4] ∧
    TransformValues (insertionSorter Int) ((List.range 10).foldl
      (fun (m : GoMap Int Int) i => m.insert (Int.ofNat i) (Int.ofNat i))
      GoMap.empty) Sprint = ["0", "1", "2", "3", "4", "5", "6", "7", "8", "9"] := by
  decide

/-- Test "one matches": with a 1 at position 2 of five zeros, the match is that 1 and the
error is nil. -/
theorem linq_test_Single_one_match :
    Single [0, 0, 1, 0, 0] (fun item : Int => decide (item = 1)) = (some 1, none) := by
  decide

end GraphQLFakeDataAPI
